import Mathlib

/-!
Verification development for the Kofi staker checker
(src/kofi_staker_checker.py).

The script retrieves on-chain events through a paginated GraphQL API,
caches the retrieved EventSet as a JSON file keyed by event type and
date, filters the events attributable to each queried address, sums the
amount field of the attributable events, and compares the sum to a
threshold.

Shallow embedding conventions:
- JSON values (the payloads produced by response.json() and json.load)
  are modelled by the mutual inductive type JValue / JArr / JObj; a
  Python dict is an association sequence (duplicate keys resolve to the
  last occurrence, as in Python's json decoder).
- Python's unbounded int is modelled by Int, str by String.
- Fallible operations return Option; an uncaught Python exception that
  escapes the modelled code is an Option.none result.
- The network is modelled by a scripted sequence of query outcomes fed
  to the paginator; the file system is modelled by a map from file
  names to file contents (lists of characters).
-/

mutual

/-- JSON values as produced by Python's json module.  Numbers are
restricted to integers, which is the only numeric shape the checker's
data model uses (amounts are integer strings).  Mutual with JArr and
JObj so that every function on JSON values is structurally
recursive. -/
inductive JValue where
  | null : JValue
  | bool : Bool → JValue
  | int : Int → JValue
  | str : String → JValue
  | arr : JArr → JValue
  | obj : JObj → JValue

/-- A JSON array, as a bespoke list of JValue. -/
inductive JArr where
  | nil : JArr
  | cons : JValue → JArr → JArr

/-- A JSON object: an association sequence of key/value pairs. -/
inductive JObj where
  | nil : JObj
  | cons : String → JValue → JObj → JObj

end

/-- Python dict.get on a decoded JSON object.  Python's json decoder
builds a dict in which a duplicated key keeps its last occurrence, so
lookup prefers the rightmost binding. -/
def lookupJ : JObj → String → Option JValue
  | JObj.nil, _ => none
  | JObj.cons k v rest, key =>
    match lookupJ rest key with
    | some r => some r
    | none => if k = key then some v else none

/-- isinstance(x, dict) for a decoded JSON value. -/
def isObjJ : JValue → Bool
  | JValue.obj _ => true
  | _ => false

/-- Convert a Lean list of values to a JSON array. -/
def jarrOfList : List JValue → JArr
  | [] => JArr.nil
  | v :: vs => JArr.cons v (jarrOfList vs)

/-- Convert a JSON array back to a Lean list of values. -/
def jarrToList : JArr → List JValue
  | JArr.nil => []
  | JArr.cons v vs => v :: jarrToList vs

/-- Decimal digit test on a character, in code-point arithmetic. -/
def isDigitChar (c : Char) : Bool := 48 ≤ c.toNat && c.toNat ≤ 57

/-- JSON/Python whitespace: space, newline, tab, carriage return. -/
def wsChar (c : Char) : Bool :=
  c.toNat = 32 || c.toNat = 10 || c.toNat = 9 || c.toNat = 13

/-- Value of a list of decimal digit characters, most significant
first, as folded up by a left-to-right scan. -/
def digitsToNat (ds : List Char) : Nat :=
  ds.foldl (fun acc c => acc * 10 + (c.toNat - 48)) 0

/-- Strip leading whitespace characters. -/
def stripLeadWs : List Char → List Char
  | [] => []
  | c :: cs => if wsChar c then stripLeadWs cs else c :: cs

/-- Strip whitespace from both ends, as Python's int(str) does before
parsing. -/
def stripWs (cs : List Char) : List Char :=
  ((stripLeadWs cs).reverse |> stripLeadWs).reverse

/-- A nonempty all-digit character list parsed to its value; anything
else is a parse failure. -/
def digitsOnly (ds : List Char) : Option Nat :=
  if ds ≠ [] ∧ ds.all isDigitChar then some (digitsToNat ds) else none

/-- Python int(s) on a string: optional surrounding whitespace, an
optional single sign, then decimal digits; anything else raises
ValueError, modelled as none.  (Underscore digit grouping, a rarely
used Python extension of the grammar, is not modelled.) -/
def parsePyIntStr (s : String) : Option Int :=
  match stripWs s.toList with
  | '-' :: ds => (digitsOnly ds).map (fun n => -(n : Int))
  | '+' :: ds => (digitsOnly ds).map (fun n => (n : Int))
  | ds => (digitsOnly ds).map (fun n => (n : Int))

/-- Python int(x) on a decoded JSON value: a string is parsed, an int
is returned unchanged, a bool is its 0/1 value (bool is an int subtype
in Python); null, arrays and objects raise TypeError, modelled as
none. -/
def pyIntOfJValue : JValue → Option Int
  | JValue.str s => parsePyIntStr s
  | JValue.int n => some n
  | JValue.bool b => some (if b then 1 else 0)
  | _ => none

/-- The amount successfully extracted from one event by
calculate_cumulative_amount's loop body: the event must be a dict, its
data field must be a dict, the data dict must carry an amount key, and
int() must accept the amount value.  Each failure mode is the none
outcome (in the source: AttributeError, the isinstance guard, the None
check, and ValueError/TypeError respectively, every one of which ends
in the malformed counter). -/
def parsedAmount (ev : JValue) : Option Int :=
  match ev with
  | JValue.obj evFields =>
    match lookupJ evFields "data" with
    | some (JValue.obj dataFields) =>
      match lookupJ dataFields "amount" with
      | some a => pyIntOfJValue a
      | none => none
    | _ => none
  | _ => none

/-- The three counters threaded through calculate_cumulative_amount:
total_amount, processed_count and malformed_data_count. -/
structure AggResult where
  total : Int
  processed : Nat
  malformed : Nat
deriving DecidableEq, Repr

/-- One iteration of the loop in calculate_cumulative_amount
(src/kofi_staker_checker.py lines 186-210), mirroring its chain of
guards: non-dict event (AttributeError caught by the blanket except),
non-dict data field, missing amount key, unparsable amount - each
counts the event as malformed; otherwise the amount is added and the
event counts as processed. -/
def aggStep (st : AggResult) (ev : JValue) : AggResult :=
  match ev with
  | JValue.obj evFields =>
    match lookupJ evFields "data" with
    | some (JValue.obj dataFields) =>
      match lookupJ dataFields "amount" with
      | some a =>
        match pyIntOfJValue a with
        | some n => { total := st.total + n, processed := st.processed + 1, malformed := st.malformed }
        | none => { st with malformed := st.malformed + 1 }
      | none => { st with malformed := st.malformed + 1 }
    | _ => { st with malformed := st.malformed + 1 }
  | _ => { st with malformed := st.malformed + 1 }

/-- The full fold of calculate_cumulative_amount over the event list,
keeping all three counters. -/
def aggregate (events : List JValue) : AggResult :=
  events.foldl aggStep { total := 0, processed := 0, malformed := 0 }

/-- calculate_cumulative_amount (src/kofi_staker_checker.py lines
172-215): the Python function returns only total_amount; the two count
variables are printed but not returned.  The early return 0 on an
empty list coincides with the fold. -/
def calculate_cumulative_amount (events : List JValue) : Int :=
  (aggregate events).total

/-- One entry of results_summary in main: address, meets_criteria,
cumulative_amount, events_found, error. -/
structure AddressResult where
  address : String
  meets_criteria : Bool
  cumulative_amount : Int
  events_found : Nat
  error : Option String
deriving DecidableEq, Repr

/-- The filter predicate of main's step 2a (lines 392-397): the event's
data field is a dict whose user entry equals the queried address; the
Python comparison data_user_value == address_to_check is true exactly
when the value is that string. -/
def isAttributable (addr : String) (ev : JValue) : Bool :=
  match ev with
  | JValue.obj evFields =>
    match lookupJ evFields "data" with
    | some (JValue.obj dataFields) =>
      match lookupJ dataFields "user" with
      | some (JValue.str u) => u = addr
      | _ => false
    | _ => false
  | _ => false

/-- Per-address behaviour of main (src/kofi_staker_checker.py lines
363-423).  An empty global EventSet yields the canned
no-global-events result (lines 367-374).  Otherwise the filter loop
calls event.get on every element of the global list; a non-dict
element raises AttributeError outside any try block, so main crashes
and the address receives no result at all - modelled as none.
Otherwise the attributable events are counted, and when some exist
their cumulative amount is computed and compared strictly against the
threshold (line 413).  The try around the calculation never fires in
the model because calculate_cumulative_amount catches all per-event
errors itself, so error stays None on that path. -/
def processAddress (allEvents : List JValue) (addr : String) (threshold : Int) :
    Option AddressResult :=
  if allEvents.isEmpty then
    some { address := addr, meets_criteria := false, cumulative_amount := 0,
           events_found := 0, error := some "No global events of target type found" }
  else if allEvents.any (fun ev => !(isObjJ ev)) then
    none
  else
    let userEvents := allEvents.filter (isAttributable addr)
    if userEvents.isEmpty then
      some { address := addr, meets_criteria := false, cumulative_amount := 0,
             events_found := userEvents.length, error := none }
    else
      let amount := calculate_cumulative_amount userEvents
      some { address := addr, meets_criteria := decide (threshold < amount),
             cumulative_amount := amount, events_found := userEvents.length,
             error := none }

/-- Outcome of one execute_query call as seen by
fetch_all_events_by_type: the call raised (transport, HTTP or JSON
decode failure), or the decoded reply carries an errors key, or its
data field is missing or falsy, or it carries a page of events (a
reply whose data lacks the events key behaves as the empty page, which
the get default also produces). -/
inductive QueryResp where
  | exn : QueryResp
  | errs : QueryResp
  | noData : QueryResp
  | page : List JValue → QueryResp

/-- The pagination loop of fetch_all_events_by_type
(src/kofi_staker_checker.py lines 119-166) driven by a scripted
sequence of query outcomes; an exhausted script behaves like a raised
exception on the attempted request.  Returns the accumulated events
together with the sequence of offsets at which requests were issued.
The loop body: an exception or an errors reply or a missing data field
or an empty page breaks; a short page is kept and breaks; a full page
is kept and the offset advances by limit. -/
def fetchGo (limit : Nat) : List QueryResp → Nat → (List JValue × List Nat)
  | [], offset => ([], [offset])
  | r :: rest, offset =>
    match r with
    | QueryResp.exn => ([], [offset])
    | QueryResp.errs => ([], [offset])
    | QueryResp.noData => ([], [offset])
    | QueryResp.page evs =>
      if evs.isEmpty then ([], [offset])
      else if evs.length < limit then (evs, [offset])
      else
        let next := fetchGo limit rest (offset + limit)
        (evs ++ next.1, offset :: next.2)

/-- fetch_all_events_by_type: the accumulated event list, starting at
offset 0. -/
def fetch_all_events_by_type (limit : Nat) (script : List QueryResp) : List JValue :=
  (fetchGo limit script 0).1

/-- The sequence of offsets requested during one pagination run. -/
def fetchOffsets (limit : Nat) (script : List QueryResp) : List Nat :=
  (fetchGo limit script 0).2

/-- Opening brace character, by code point. -/
def obraceChar : Char := Char.ofNat 123

/-- Closing brace character, by code point. -/
def cbraceChar : Char := Char.ofNat 125

/-- Indentation: a run of spaces, as produced by json.dump(indent=2). -/
def pad (n : Nat) : List Char := List.replicate n ' '

/-- The character of a decimal digit value. -/
def digitChar (d : Nat) : Char := Char.ofNat (48 + d)

/-- Decimal digits of n, most significant first, driven by a fuel
argument so that the definition is structurally recursive and reduces
inside the kernel.  Any fuel above n yields the digits of n. -/
def natToCharsAux : Nat → Nat → List Char
  | 0, _ => []
  | fuel + 1, n =>
    if n < 10 then [digitChar n]
    else natToCharsAux fuel (n / 10) ++ [digitChar (n % 10)]

/-- Decimal digits of n, most significant first. -/
def natToChars (n : Nat) : List Char := natToCharsAux (n + 1) n

/-- Decimal rendering of a Python int, as json.dump prints it. -/
def serInt (n : Int) : List Char :=
  if n < 0 then '-' :: natToChars n.natAbs else natToChars n.toNat

/-- Lowercase hexadecimal digit character of a value below 16. -/
def hexDigitChar (d : Nat) : Char := Char.ofNat (if d < 10 then 48 + d else 87 + d)

/-- JSON escaping of one character: quote and backslash get a
backslash escape, control characters a four-digit hex escape, and
every other character stands for itself.  Modelled from the spec: the
cache file format is a JSON-equivalent serialization read back
losslessly; Python's json.dump short escapes for some control
characters and its optional ASCII-only mode produce byte-level
variants of this scheme that the reader decodes identically. -/
def escChar (c : Char) : List Char :=
  if c = '"' then ['\\', '"']
  else if c = '\\' then ['\\', '\\']
  else if c.toNat < 32 then
    ['\\', 'u', '0', '0', hexDigitChar (c.toNat / 16), hexDigitChar (c.toNat % 16)]
  else [c]

/-- JSON escaping of a character sequence. -/
def escChars : List Char → List Char
  | [] => []
  | c :: cs => escChar c ++ escChars cs

/-- A JSON string literal: quoted, escaped content. -/
def serStr (s : String) : List Char := '"' :: escChars s.data ++ ['"']

mutual

/-- json.dump with indent 2, at indentation level ind: the exact text
layout Python writes for the cache file (empty containers inline,
nonempty containers one element per line). -/
def serVal (ind : Nat) : JValue → List Char
  | JValue.null => ['n', 'u', 'l', 'l']
  | JValue.bool true => ['t', 'r', 'u', 'e']
  | JValue.bool false => ['f', 'a', 'l', 's', 'e']
  | JValue.int n => serInt n
  | JValue.str s => serStr s
  | JValue.arr JArr.nil => ['[', ']']
  | JValue.arr (JArr.cons v vs) =>
    '[' :: '\n' :: pad (ind + 2) ++ serItems (ind + 2) (JArr.cons v vs) ++
      '\n' :: pad ind ++ [']']
  | JValue.obj JObj.nil => [obraceChar, cbraceChar]
  | JValue.obj (JObj.cons k v fs) =>
    obraceChar :: '\n' :: pad (ind + 2) ++ serMembers (ind + 2) (JObj.cons k v fs) ++
      '\n' :: pad ind ++ [cbraceChar]

/-- The comma-and-newline separated items of a nonempty array. -/
def serItems (ind : Nat) : JArr → List Char
  | JArr.nil => []
  | JArr.cons v JArr.nil => serVal ind v
  | JArr.cons v (JArr.cons w ws) =>
    serVal ind v ++ ',' :: '\n' :: pad ind ++ serItems ind (JArr.cons w ws)

/-- The comma-and-newline separated members of a nonempty object; the
key separator is a colon and one space. -/
def serMembers (ind : Nat) : JObj → List Char
  | JObj.nil => []
  | JObj.cons k v JObj.nil => serStr k ++ ':' :: ' ' :: serVal ind v
  | JObj.cons k v (JObj.cons k2 v2 fs) =>
    serStr k ++ ':' :: ' ' :: serVal ind v ++ ',' :: '\n' :: pad ind ++
      serMembers ind (JObj.cons k2 v2 fs)

end

/-- Drop leading JSON whitespace, as the decoder does between
tokens. -/
def skipWs : List Char → List Char
  | [] => []
  | c :: cs => if wsChar c then skipWs cs else c :: cs

/-- Value of one hexadecimal digit character. -/
def hexVal (c : Char) : Option Nat :=
  if 48 ≤ c.toNat ∧ c.toNat ≤ 57 then some (c.toNat - 48)
  else if 97 ≤ c.toNat ∧ c.toNat ≤ 102 then some (c.toNat - 87)
  else if 65 ≤ c.toNat ∧ c.toNat ≤ 70 then some (c.toNat - 55)
  else none

/-- JSON string body decoder, after the opening quote, with the
already-decoded characters accumulated in reverse.  Handles the
backslash escapes of the json decoder: quote, backslash, slash, the
letter escapes, and four-digit hex escapes. -/
def parseStrAux : List Char → List Char → Option (String × List Char)
  | _, [] => none
  | acc, c :: cs =>
    if c = '"' then some (String.mk acc.reverse, cs)
    else if c = '\\' then
      match cs with
      | [] => none
      | e :: cs2 =>
        if e = 'u' then
          match cs2 with
          | h1 :: h2 :: h3 :: h4 :: cs3 =>
            match hexVal h1, hexVal h2, hexVal h3, hexVal h4 with
            | some a, some b, some c2, some d =>
              parseStrAux (Char.ofNat (((a * 16 + b) * 16 + c2) * 16 + d) :: acc) cs3
            | _, _, _, _ => none
          | _ => none
        else if e = '"' ∨ e = '\\' ∨ e = '/' then parseStrAux (e :: acc) cs2
        else if e = 'n' then parseStrAux ('\n' :: acc) cs2
        else if e = 't' then parseStrAux ('\t' :: acc) cs2
        else if e = 'r' then parseStrAux ('\r' :: acc) cs2
        else if e = 'b' then parseStrAux (Char.ofNat 8 :: acc) cs2
        else if e = 'f' then parseStrAux (Char.ofNat 12 :: acc) cs2
        else none
    else parseStrAux (c :: acc) cs

/-- JSON number decoding, limited to the integer shapes the serializer
emits: a nonempty run of decimal digits and what follows it. -/
def parseNat (cs : List Char) : Option (Nat × List Char) :=
  let ds := cs.takeWhile isDigitChar
  if ds.isEmpty then none else some (digitsToNat ds, cs.dropWhile isDigitChar)

mutual

/-- Recursive-descent JSON value decoder with a fuel bound; fuel at
least the node count of the encoded value suffices.  Modelled from the
spec: json.load reads the cache file back losslessly. -/
def parseVal : Nat → List Char → Option (JValue × List Char)
  | 0, _ => none
  | fuel + 1, cs =>
    match skipWs cs with
    | [] => none
    | c :: cs1 =>
      if c = 'n' then
        match cs1 with
        | 'u' :: 'l' :: 'l' :: r => some (JValue.null, r)
        | _ => none
      else if c = 't' then
        match cs1 with
        | 'r' :: 'u' :: 'e' :: r => some (JValue.bool true, r)
        | _ => none
      else if c = 'f' then
        match cs1 with
        | 'a' :: 'l' :: 's' :: 'e' :: r => some (JValue.bool false, r)
        | _ => none
      else if c = '"' then
        (parseStrAux [] cs1).map (fun p => (JValue.str p.1, p.2))
      else if c = '[' then
        match skipWs cs1 with
        | [] => none
        | d :: cs2 =>
          if d = ']' then some (JValue.arr JArr.nil, cs2)
          else (parseItems fuel (d :: cs2)).map (fun p => (JValue.arr p.1, p.2))
      else if c = obraceChar then
        match skipWs cs1 with
        | [] => none
        | d :: cs2 =>
          if d = cbraceChar then some (JValue.obj JObj.nil, cs2)
          else (parseMembers fuel (d :: cs2)).map (fun p => (JValue.obj p.1, p.2))
      else if c = '-' then
        (parseNat cs1).map (fun p => (JValue.int (-(p.1 : Int)), p.2))
      else if isDigitChar c then
        (parseNat (c :: cs1)).map (fun p => (JValue.int (p.1 : Int), p.2))
      else none

/-- The items of a nonempty array, after the opening bracket. -/
def parseItems : Nat → List Char → Option (JArr × List Char)
  | 0, _ => none
  | fuel + 1, cs =>
    match parseVal fuel cs with
    | none => none
    | some (v, r) =>
      match skipWs r with
      | [] => none
      | c :: r2 =>
        if c = ',' then (parseItems fuel r2).map (fun p => (JArr.cons v p.1, p.2))
        else if c = ']' then some (JArr.cons v JArr.nil, r2)
        else none

/-- The members of a nonempty object, after the opening brace. -/
def parseMembers : Nat → List Char → Option (JObj × List Char)
  | 0, _ => none
  | fuel + 1, cs =>
    match skipWs cs with
    | [] => none
    | c :: cs1 =>
      if c = '"' then
        match parseStrAux [] cs1 with
        | none => none
        | some (k, r1) =>
          match skipWs r1 with
          | [] => none
          | c2 :: r2 =>
            if c2 = ':' then
              match parseVal fuel r2 with
              | none => none
              | some (v, r3) =>
                match skipWs r3 with
                | [] => none
                | c3 :: r4 =>
                  if c3 = ',' then (parseMembers fuel r4).map (fun p => (JObj.cons k v p.1, p.2))
                  else if c3 = cbraceChar then some (JObj.cons k v JObj.nil, r4)
                  else none
            else none
      else none

end

/-- json.load on a whole file: decode one value and accept only
whitespace after it. -/
def jparse (cs : List Char) : Option JValue :=
  match parseVal (cs.length + 1) cs with
  | some (v, r) => if (skipWs r).isEmpty then some v else none
  | none => none

/-- The double-colon replacement in _get_cache_filename: every
occurrence of two consecutive colons becomes one underscore. -/
def replaceDColon : List Char → List Char
  | [] => []
  | ':' :: ':' :: rest => '_' :: replaceDColon rest
  | c :: rest => c :: replaceDColon rest

/-- Single-character replacement, for the angle brackets in
_get_cache_filename. -/
def replaceChar (a b : Char) (cs : List Char) : List Char :=
  cs.map (fun c => if c = a then b else c)

/-- The filename-friendly event type of _get_cache_filename
(src/kofi_staker_checker.py lines 55-60): replace double colons, then
the less-than sign, then the greater-than sign. -/
def sanitizeEventType (eventType : String) : List Char :=
  replaceChar '>' '_' (replaceChar '<' '_' (replaceDColon eventType.toList))

/-- The cache file path for an event type and date, joined under the
cache directory. -/
def cacheFilePath (cacheDir eventType date : String) : String :=
  cacheDir ++ "/" ++ String.mk (sanitizeEventType eventType) ++ "_events_" ++ date ++ ".json"

/-- The file system as the checker sees it: file contents by path. -/
def FileSys : Type := String → Option (List Char)

/-- The cache file text for an EventSet: json.dump(events, f,
indent=2) at top level. -/
def serializeEvents (events : List JValue) : List Char :=
  serVal 0 (JValue.arr (jarrOfList events))

/-- Writing the cache file (src/kofi_staker_checker.py lines 352-355):
the serialized EventSet overwrites whatever the path held. -/
def cacheStore (fs : FileSys) (path : String) (events : List JValue) : FileSys :=
  fun p => if p = path then some (serializeEvents events) else fs p

/-- Reading the cache file (src/kofi_staker_checker.py lines 323-338):
absent file, undecodable contents, or contents that are not a list all
yield none, which sends main to a live fetch; a decoded list is the
EventSet. -/
def cacheLoad (fs : FileSys) (path : String) : Option (List JValue) :=
  match fs path with
  | none => none
  | some content =>
    match jparse content with
    | some (JValue.arr a) => some (jarrToList a)
    | _ => none

/-- Result of main's step 1: the EventSet it will use, the file system
afterwards, and whether a live fetch happened. -/
structure FetchCacheOut where
  events : List JValue
  fs : FileSys
  fetched : Bool

/-- Step 1 of main (src/kofi_staker_checker.py lines 313-361): with
caching enabled, try the cache file for the event type and current
date; on a miss (absent, undecodable, or not a list) run the paginated
fetch and write whatever it returned, empty or partial included, back
to the cache file.  The no-cache flag skips the read but not the
write. -/
def mainFetchStep (fs : FileSys) (script : List QueryResp) (noCache : Bool)
    (eventType cacheDir date : String) (limit : Nat) : FetchCacheOut :=
  let path := cacheFilePath cacheDir eventType date
  let loaded : Option (List JValue) := if noCache then none else cacheLoad fs path
  match loaded with
  | some evs => { events := evs, fs := fs, fetched := false }
  | none =>
    let evs := fetch_all_events_by_type limit script
    { events := evs, fs := cacheStore fs path evs, fetched := true }

/-- Test-data builder: a mint event with a user and an amount string
in its data payload. -/
def mkMint (user amount : String) : JValue :=
  JValue.obj (JObj.cons "data"
    (JValue.obj (JObj.cons "user" (JValue.str user)
      (JObj.cons "amount" (JValue.str amount) JObj.nil))) JObj.nil)

/-- Ten attributable events of which three carry a non-numeric amount;
the seven valid amounts sum to 280. -/
def eventsTenThreeBad : List JValue :=
  [mkMint "0xF" "10", mkMint "0xF" "abc", mkMint "0xF" "20", mkMint "0xF" "30",
   mkMint "0xF" "", mkMint "0xF" "40", mkMint "0xF" "50", mkMint "0xF" "12x",
   mkMint "0xF" "60", mkMint "0xF" "70"]

/-- A well-formed event whose amount is five. -/
def evAmountFive : JValue := mkMint "0xA" "5"

/-- A well-formed event whose amount string is negative; Python's
int() accepts it. -/
def evNegAmount : JValue := mkMint "0xA" "-5"

/-- The file system with no files. -/
def emptyFS : FileSys := fun _ => none

/-- The expected AddressResult for the C1 boundary witness: one event of
amount five checked against threshold five. -/
def c1WitnessResult : AddressResult :=
  { address := "0xA", meets_criteria := false, cumulative_amount := 5,
    events_found := 1, error := none }

mutual

/-- Node count of a JSON value, used as a fuel bound for the
decoder. -/
def sizeV : JValue → Nat
  | JValue.arr a => sizeA a + 1
  | JValue.obj o => sizeO o + 1
  | _ => 1

/-- Node count of a JSON array. -/
def sizeA : JArr → Nat
  | JArr.nil => 0
  | JArr.cons v vs => sizeV v + 1 + sizeA vs

/-- Node count of a JSON object. -/
def sizeO : JObj → Nat
  | JObj.nil => 0
  | JObj.cons _ v fs => sizeV v + 1 + sizeO fs

end

/-- A character stream that does not begin with a decimal digit, so a
number decoded in front of it ends where the stream begins. -/
def noDigitHead : List Char → Prop
  | [] => True
  | c :: _ => isDigitChar c = false

theorem jarrToList_ofList : ∀ l : List JValue, jarrToList (jarrOfList l) = l
  | [] => rfl
  | v :: vs => by simp [jarrOfList, jarrToList, jarrToList_ofList vs]

theorem sizeV_pos : ∀ v : JValue, 1 ≤ sizeV v := by
  intro v
  cases v <;> simp [sizeV]

theorem digit_facts (c : Char) (h : isDigitChar c = true) :
    c ≠ 'n' ∧ c ≠ 't' ∧ c ≠ 'f' ∧ c ≠ '"' ∧ c ≠ '[' ∧ c ≠ obraceChar ∧
      c ≠ '-' ∧ wsChar c = false ∧ c ≠ ']' ∧ c ≠ cbraceChar ∧ c ≠ ',' := by
  simp only [isDigitChar, Bool.and_eq_true, decide_eq_true_eq] at h
  refine ⟨?_, ?_, ?_, ?_, ?_, ?_, ?_, ?_, ?_, ?_, ?_⟩
  all_goals first
    | (intro h'; subst h'; revert h; decide)
    | (simp only [wsChar, Bool.or_eq_false_iff, decide_eq_false_iff_not]; omega)

theorem skipWs_not_ws {c : Char} (cs : List Char) (h : wsChar c = false) :
    skipWs (c :: cs) = c :: cs := by
  simp [skipWs, h]

theorem skipWs_ws_append (ws : List Char) (cs : List Char)
    (h : ws.all wsChar = true) : skipWs (ws ++ cs) = skipWs cs := by
  induction ws with
  | nil => rfl
  | cons c rest ih =>
    simp only [List.all_cons, Bool.and_eq_true] at h
    simp [skipWs, h.1, ih h.2]

theorem pad_all_ws (n : Nat) : (pad n).all wsChar = true := by
  induction n with
  | zero => rfl
  | succ m ih =>
    simp only [pad, List.replicate_succ, List.all_cons, Bool.and_eq_true]
    exact ⟨by decide, ih⟩

theorem skipWs_nl_pad (n : Nat) (cs : List Char) :
    skipWs ('\n' :: (pad n ++ cs)) = skipWs cs := by
  have h1 : skipWs ('\n' :: (pad n ++ cs)) = skipWs (pad n ++ cs) := by
    simp [skipWs, wsChar]
  rw [h1, skipWs_ws_append _ _ (pad_all_ws n)]

theorem takeWhile_all_app {p : Char → Bool} (l rest : List Char)
    (h : l.all p = true) : (l ++ rest).takeWhile p = l ++ rest.takeWhile p := by
  induction l with
  | nil => rfl
  | cons c cs ih =>
    simp only [List.all_cons, Bool.and_eq_true] at h
    simp [List.takeWhile_cons, h.1, ih h.2]

theorem dropWhile_all_app {p : Char → Bool} (l rest : List Char)
    (h : l.all p = true) : (l ++ rest).dropWhile p = rest.dropWhile p := by
  induction l with
  | nil => rfl
  | cons c cs ih =>
    simp only [List.all_cons, Bool.and_eq_true] at h
    simp [List.dropWhile_cons, h.1, ih h.2]

theorem takeWhile_digit_stop (rest : List Char) (h : noDigitHead rest) :
    rest.takeWhile isDigitChar = [] := by
  cases rest with
  | nil => rfl
  | cons c cs => simp_all [noDigitHead, List.takeWhile_cons]

theorem dropWhile_digit_stop (rest : List Char) (h : noDigitHead rest) :
    rest.dropWhile isDigitChar = rest := by
  cases rest with
  | nil => rfl
  | cons c cs => simp_all [noDigitHead, List.dropWhile_cons]

theorem digitChar_toNat : ∀ d : Nat, d < 10 → (digitChar d).toNat = 48 + d := by
  decide

theorem digitChar_isDigit (d : Nat) (h : d < 10) : isDigitChar (digitChar d) = true := by
  simp only [isDigitChar, digitChar_toNat d h, Bool.and_eq_true, decide_eq_true_eq]
  omega

theorem natToCharsAux_ne_nil : ∀ fuel n, n < fuel → natToCharsAux fuel n ≠ [] := by
  intro fuel
  induction fuel with
  | zero => omega
  | succ m ih =>
    intro n hn
    by_cases h : n < 10
    · simp [natToCharsAux, h]
    · simp only [natToCharsAux, if_neg h]
      intro hc
      exact absurd (List.append_eq_nil.mp hc).2 (by simp)

theorem natToCharsAux_all_digits : ∀ fuel n, n < fuel →
    (natToCharsAux fuel n).all isDigitChar = true := by
  intro fuel
  induction fuel with
  | zero => omega
  | succ m ih =>
    intro n hn
    by_cases h : n < 10
    · simp [natToCharsAux, h, digitChar_isDigit n h]
    · have hd : n / 10 < m := by omega
      simp [natToCharsAux, if_neg h, List.all_append, ih _ hd,
        digitChar_isDigit (n % 10) (by omega)]

theorem natToCharsAux_foldl : ∀ fuel n acc, n < fuel →
    List.foldl (fun a c => a * 10 + (c.toNat - 48)) acc (natToCharsAux fuel n) =
      acc * 10 ^ (natToCharsAux fuel n).length + n := by
  intro fuel
  induction fuel with
  | zero => omega
  | succ m ih =>
    intro n acc hn
    by_cases h : n < 10
    · simp only [natToCharsAux, if_pos h, List.foldl_cons, List.foldl_nil,
        List.length_cons, List.length_nil, pow_one, zero_add,
        digitChar_toNat n h]
      omega
    · have hd : n / 10 < m := by omega
      simp only [natToCharsAux, if_neg h, List.foldl_append, List.foldl_cons,
        List.foldl_nil, List.length_append, List.length_cons, List.length_nil]
      rw [ih _ acc hd, digitChar_toNat (n % 10) (by omega)]
      have hpow : 10 ^ ((natToCharsAux m (n / 10)).length + (0 + 1)) =
          10 ^ (natToCharsAux m (n / 10)).length * 10 := by
        rw [zero_add, pow_succ]
      rw [hpow]
      have := Nat.div_add_mod n 10
      set k := 10 ^ (natToCharsAux m (n / 10)).length
      ring_nf
      omega

theorem digitsToNat_natToChars (n : Nat) : digitsToNat (natToChars n) = n := by
  have := natToCharsAux_foldl (n + 1) n 0 (by omega)
  simpa [digitsToNat, natToChars] using this

theorem parseNat_natToChars (n : Nat) (rest : List Char) (h : noDigitHead rest) :
    parseNat (natToChars n ++ rest) = some (n, rest) := by
  have hall := natToCharsAux_all_digits (n + 1) n (by omega)
  have hne := natToCharsAux_ne_nil (n + 1) n (by omega)
  simp only [parseNat, natToChars] at *
  rw [takeWhile_all_app _ _ hall, takeWhile_digit_stop _ h,
    dropWhile_all_app _ _ hall, dropWhile_digit_stop _ h]
  have hne2 : (natToCharsAux (n + 1) n ++ ([] : List Char)).isEmpty = false := by
    simp only [List.append_nil]
    cases hx : natToCharsAux (n + 1) n with
    | nil => exact absurd hx hne
    | cons a l => rfl
  simp only [List.append_nil] at hne2 ⊢
  rw [if_neg (by simp [hne2])]
  have h3 := digitsToNat_natToChars n
  simp only [natToChars] at h3
  rw [h3]

theorem natToChars_head (n : Nat) :
    ∃ d ds, natToChars n = d :: ds ∧ isDigitChar d = true := by
  have hall := natToCharsAux_all_digits (n + 1) n (by omega)
  have hne := natToCharsAux_ne_nil (n + 1) n (by omega)
  cases hx : natToChars n with
  | nil => exact absurd hx hne
  | cons d ds =>
    refine ⟨d, ds, rfl, ?_⟩
    rw [natToChars] at hx
    rw [hx] at hall
    simp only [List.all_cons, Bool.and_eq_true] at hall
    exact hall.1

theorem hexVal_hexDigitChar : ∀ d : Nat, d < 16 → hexVal (hexDigitChar d) = some d := by
  decide

theorem charOfNat_toNat (c : Char) (h : c.toNat < 55296) : Char.ofNat c.toNat = c := by
  unfold Char.ofNat
  have hv : Nat.isValidChar c.toNat := Or.inl h
  rw [dif_pos hv]
  rfl

theorem parseStrAux_esc : ∀ (s acc rest : List Char),
    parseStrAux acc (escChars s ++ '"' :: rest) =
      some (String.mk (acc.reverse ++ s), rest) := by
  intro s
  induction s with
  | nil =>
    intro acc rest
    rw [show escChars [] ++ '"' :: rest = '"' :: rest from rfl]
    rw [parseStrAux.eq_def]
    simp
  | cons c cs ih =>
    intro acc rest
    rw [show escChars (c :: cs) = escChar c ++ escChars cs from rfl]
    by_cases hq : c = '"'
    · subst hq
      have hsh : (escChar '"' ++ escChars cs) ++ '"' :: rest =
          '\\' :: '"' :: (escChars cs ++ '"' :: rest) := by
        rw [show escChar '"' = ['\\', '"'] from rfl]
        simp
      rw [hsh, parseStrAux.eq_def]
      simp only [reduceCtorEq, reduceIte]
      rw [ih]
      simp
    · by_cases hb : c = '\\'
      · subst hb
        have hsh : (escChar '\\' ++ escChars cs) ++ '"' :: rest =
            '\\' :: '\\' :: (escChars cs ++ '"' :: rest) := by
          rw [show escChar '\\' = ['\\', '\\'] from rfl]
          simp
        rw [hsh, parseStrAux.eq_def]
        simp only [reduceCtorEq, reduceIte]
        rw [ih]
        simp
      · by_cases hctl : c.toNat < 32
        · have hesc : escChar c =
              ['\\', 'u', '0', '0', hexDigitChar (c.toNat / 16), hexDigitChar (c.toNat % 16)] := by
            rw [escChar, if_neg hq, if_neg hb, if_pos hctl]
          have hsh : (escChar c ++ escChars cs) ++ '"' :: rest =
              '\\' :: 'u' :: '0' :: '0' :: hexDigitChar (c.toNat / 16) ::
                hexDigitChar (c.toNat % 16) :: (escChars cs ++ '"' :: rest) := by
            rw [hesc]
            simp
          rw [hsh, parseStrAux.eq_def]
          simp only [reduceCtorEq, reduceIte]
          rw [show hexVal '0' = some 0 from rfl,
            hexVal_hexDigitChar (c.toNat / 16) (by omega),
            hexVal_hexDigitChar (c.toNat % 16) (by omega)]
          simp only []
          have harith : ((0 * 16 + 0) * 16 + c.toNat / 16) * 16 + c.toNat % 16 = c.toNat := by
            omega
          rw [harith, charOfNat_toNat c (by omega), ih]
          simp
        · have hesc : escChar c = [c] := by
            rw [escChar, if_neg hq, if_neg hb, if_neg hctl]
          have hsh : (escChar c ++ escChars cs) ++ '"' :: rest =
              c :: (escChars cs ++ '"' :: rest) := by
            rw [hesc]
            simp
          rw [hsh, parseStrAux.eq_def]
          simp only [if_neg hq, if_neg hb]
          rw [ih]
          simp

theorem parseStr_serStr (s : String) (rest : List Char) :
    parseStrAux [] (escChars s.data ++ '"' :: rest) = some (s, rest) := by
  rw [parseStrAux_esc]
  cases s with
  | mk data => rfl

theorem ws_not_digit (c : Char) (h : wsChar c = true) : isDigitChar c = false := by
  simp only [wsChar, Bool.or_eq_true, decide_eq_true_eq] at h
  simp only [isDigitChar, Bool.and_eq_false_iff, decide_eq_false_iff_not]
  omega

theorem noDigitHead_cons {c : Char} {l : List Char} (h : isDigitChar c = false) :
    noDigitHead (c :: l) := h

theorem noDigitHead_ws_close (ws : List Char) (h : ws.all wsChar = true)
    (c : Char) (hc : isDigitChar c = false) (rest : List Char) :
    noDigitHead (ws ++ c :: rest) := by
  cases ws with
  | nil => exact hc
  | cons w ws2 =>
    simp only [List.all_cons, Bool.and_eq_true] at h
    exact ws_not_digit w h.1

theorem nlpad_all_ws (n : Nat) : ('\n' :: pad n).all wsChar = true := by
  simp only [List.all_cons, Bool.and_eq_true]
  exact ⟨by decide, pad_all_ws n⟩

theorem parseVal_ws_drop (fuel : Nat) (wsp cs : List Char)
    (h : wsp.all wsChar = true) :
    parseVal fuel (wsp ++ cs) = parseVal fuel cs := by
  cases fuel with
  | zero => rfl
  | succ f => rw [parseVal.eq_2, parseVal.eq_2, skipWs_ws_append _ _ h]

theorem parseItems_ws_drop (fuel : Nat) (wsp cs : List Char)
    (h : wsp.all wsChar = true) :
    parseItems fuel (wsp ++ cs) = parseItems fuel cs := by
  cases fuel with
  | zero => rfl
  | succ f => rw [parseItems.eq_2, parseItems.eq_2, parseVal_ws_drop _ _ _ h]

theorem parseMembers_ws_drop (fuel : Nat) (wsp cs : List Char)
    (h : wsp.all wsChar = true) :
    parseMembers fuel (wsp ++ cs) = parseMembers fuel cs := by
  cases fuel with
  | zero => rfl
  | succ f => rw [parseMembers.eq_2, parseMembers.eq_2, skipWs_ws_append _ _ h]

theorem serVal_head (ind : Nat) (v : JValue) :
    ∃ c cs, serVal ind v = c :: cs ∧ wsChar c = false ∧ c ≠ ']' ∧
      c ≠ cbraceChar ∧ c ≠ ',' := by
  cases v with
  | null => exact ⟨'n', _, serVal.eq_1 ind, by decide, by decide, by decide, by decide⟩
  | bool b =>
    cases b with
    | false => exact ⟨'f', _, serVal.eq_3 ind, by decide, by decide, by decide, by decide⟩
    | true => exact ⟨'t', _, serVal.eq_2 ind, by decide, by decide, by decide, by decide⟩
  | int n =>
    by_cases hneg : n < 0
    · refine ⟨'-', natToChars n.natAbs, ?_, by decide, by decide, by decide, by decide⟩
      rw [serVal.eq_4, serInt, if_pos hneg]
    · obtain ⟨d, ds, hd, hdig⟩ := natToChars_head n.toNat
      obtain ⟨_, _, _, _, _, _, _, hws, hrb, hcb, hcm⟩ := digit_facts d hdig
      refine ⟨d, ds, ?_, hws, hrb, hcb, hcm⟩
      rw [serVal.eq_4, serInt, if_neg hneg, hd]
  | str s =>
    refine ⟨'"', escChars s.toList ++ ['"'], ?_, by decide, by decide, by decide, by decide⟩
    rw [serVal.eq_5]
    rfl
  | arr a =>
    cases a with
    | nil => exact ⟨'[', _, serVal.eq_6 ind, by decide, by decide, by decide, by decide⟩
    | cons v vs => exact ⟨'[', _, serVal.eq_7 ind v vs, by decide, by decide, by decide, by decide⟩
  | obj o =>
    cases o with
    | nil => exact ⟨obraceChar, _, serVal.eq_8 ind, by decide, by decide, by decide, by decide⟩
    | cons k v fs =>
      exact ⟨obraceChar, _, serVal.eq_9 ind k v fs, by decide, by decide, by decide, by decide⟩

theorem serItems_head (ind : Nat) (v : JValue) (vs : JArr) :
    ∃ c cs, serItems ind (JArr.cons v vs) = c :: cs ∧ wsChar c = false ∧ c ≠ ']' ∧
      c ≠ cbraceChar ∧ c ≠ ',' := by
  obtain ⟨c, cs, hc, h1, h2, h3, h4⟩ := serVal_head ind v
  cases vs with
  | nil => exact ⟨c, cs, by rw [serItems.eq_2, hc], h1, h2, h3, h4⟩
  | cons w ws =>
    refine ⟨c, cs ++ (',' :: '\n' :: pad ind ++ serItems ind (JArr.cons w ws)), ?_, h1, h2, h3, h4⟩
    rw [serItems.eq_3, hc]
    simp

theorem serMembers_head (ind : Nat) (k : String) (v : JValue) (fs : JObj) :
    ∃ cs, serMembers ind (JObj.cons k v fs) = '"' :: cs := by
  cases fs with
  | nil =>
    refine ⟨escChars k.data ++ ['"'] ++ (':' :: ' ' :: serVal ind v), ?_⟩
    rw [serMembers.eq_2]
    simp [serStr]
  | cons k2 v2 fs2 =>
    refine ⟨escChars k.data ++ ['"'] ++
      (':' :: ' ' :: serVal ind v ++ ',' :: '\n' :: pad ind ++
        serMembers ind (JObj.cons k2 v2 fs2)), ?_⟩
    rw [serMembers.eq_3]
    simp [serStr]

mutual

theorem parseVal_ser (v : JValue) : ∀ (ind fuel : Nat) (rest : List Char),
    sizeV v < fuel → noDigitHead rest →
    parseVal fuel (serVal ind v ++ rest) = some (v, rest) := by
  cases v with
  | null =>
    intro ind fuel rest hs hr
    cases fuel with
    | zero => simp [sizeV] at hs
    | succ f =>
      rw [serVal.eq_1]
      rw [show (['n', 'u', 'l', 'l'] : List Char) ++ rest =
        'n' :: 'u' :: 'l' :: 'l' :: rest from by simp]
      rw [parseVal.eq_2]
      rw [skipWs_not_ws _ (by decide : wsChar 'n' = false)]
      simp
  | bool b =>
    intro ind fuel rest hs hr
    cases fuel with
    | zero => simp [sizeV] at hs
    | succ f =>
      cases b with
      | true =>
        rw [serVal.eq_2]
        rw [show (['t', 'r', 'u', 'e'] : List Char) ++ rest =
          't' :: 'r' :: 'u' :: 'e' :: rest from by simp]
        rw [parseVal.eq_2]
        rw [skipWs_not_ws _ (by decide : wsChar 't' = false)]
        simp
      | false =>
        rw [serVal.eq_3]
        rw [show (['f', 'a', 'l', 's', 'e'] : List Char) ++ rest =
          'f' :: 'a' :: 'l' :: 's' :: 'e' :: rest from by simp]
        rw [parseVal.eq_2]
        rw [skipWs_not_ws _ (by decide : wsChar 'f' = false)]
        simp
  | int n =>
    intro ind fuel rest hs hr
    cases fuel with
    | zero => simp [sizeV] at hs
    | succ f =>
      rw [serVal.eq_4]
      by_cases hneg : n < 0
      · rw [show serInt n = '-' :: natToChars n.natAbs from by rw [serInt, if_pos hneg]]
        rw [show ('-' :: natToChars n.natAbs) ++ rest =
          '-' :: (natToChars n.natAbs ++ rest) from by simp]
        rw [parseVal.eq_2]
        rw [skipWs_not_ws _ (by decide : wsChar '-' = false)]
        simp only [Char.reduceEq, reduceIte,
          if_neg (show ¬(('-' : Char) = obraceChar) from by decide)]
        rw [parseNat_natToChars n.natAbs rest hr]
        simp only [Option.map_some']
        have habs : -(n.natAbs : Int) = n := by omega
        rw [habs]
      · rw [show serInt n = natToChars n.toNat from by rw [serInt, if_neg hneg]]
        obtain ⟨d, ds, hd, hdig⟩ := natToChars_head n.toNat
        obtain ⟨hn, ht, hf, hq, hbr, hob, hm, hws, _, _, _⟩ := digit_facts d hdig
        rw [hd]
        rw [show (d :: ds) ++ rest = d :: (ds ++ rest) from by simp]
        rw [parseVal.eq_2]
        rw [skipWs_not_ws _ hws]
        simp only [if_neg hn, if_neg ht, if_neg hf, if_neg hq, if_neg hbr, if_neg hob,
          if_neg hm, if_pos hdig]
        have hpn : parseNat (d :: (ds ++ rest)) = some (n.toNat, rest) := by
          have h2 := parseNat_natToChars n.toNat rest hr
          rw [hd] at h2
          simpa using h2
        rw [hpn]
        simp only [Option.map_some']
        have hcast : ((n.toNat : Nat) : Int) = n := by omega
        rw [hcast]
  | str s =>
    intro ind fuel rest hs hr
    cases fuel with
    | zero => simp [sizeV] at hs
    | succ f =>
      rw [serVal.eq_5]
      rw [show serStr s ++ rest = '"' :: (escChars s.data ++ '"' :: rest) from by
        simp [serStr]]
      rw [parseVal.eq_2]
      rw [skipWs_not_ws _ (by decide : wsChar '"' = false)]
      simp only [Char.reduceEq, reduceIte]
      rw [parseStr_serStr]
      rfl
  | arr a =>
    cases a with
    | nil =>
      intro ind fuel rest hs hr
      cases fuel with
      | zero => simp [sizeV] at hs
      | succ f =>
        rw [serVal.eq_6]
        rw [show (['[', ']'] : List Char) ++ rest = '[' :: ']' :: rest from by simp]
        rw [parseVal.eq_2]
        rw [skipWs_not_ws _ (by decide : wsChar '[' = false)]
        simp only [Char.reduceEq, reduceIte]
        rw [skipWs_not_ws rest (by decide : wsChar ']' = false)]
        simp
    | cons v vs =>
      intro ind fuel rest hs hr
      cases fuel with
      | zero => omega
      | succ f =>
        rw [serVal.eq_7]
        rw [show ('[' :: '\n' :: pad (ind + 2) ++ serItems (ind + 2) (JArr.cons v vs) ++
            '\n' :: pad ind ++ [']']) ++ rest =
          '[' :: '\n' :: (pad (ind + 2) ++ (serItems (ind + 2) (JArr.cons v vs) ++
            ('\n' :: (pad ind ++ (']' :: rest))))) from by simp]
        rw [parseVal.eq_2]
        rw [skipWs_not_ws _ (by decide : wsChar '[' = false)]
        simp only [Char.reduceEq, reduceIte]
        rw [show skipWs ('\n' :: (pad (ind + 2) ++ (serItems (ind + 2) (JArr.cons v vs) ++
            ('\n' :: (pad ind ++ (']' :: rest)))))) =
          skipWs (serItems (ind + 2) (JArr.cons v vs) ++
            ('\n' :: (pad ind ++ (']' :: rest)))) from by
          rw [show ('\n' :: (pad (ind + 2) ++ (serItems (ind + 2) (JArr.cons v vs) ++
              ('\n' :: (pad ind ++ (']' :: rest)))))) =
            ('\n' :: pad (ind + 2)) ++ (serItems (ind + 2) (JArr.cons v vs) ++
              ('\n' :: (pad ind ++ (']' :: rest)))) from by simp]
          exact skipWs_ws_append _ _ (nlpad_all_ws (ind + 2))]
        obtain ⟨c, cs, hc, hws, hrb, hcb, hcm⟩ := serItems_head (ind + 2) v vs
        rw [hc]
        rw [show (c :: cs) ++ ('\n' :: (pad ind ++ (']' :: rest))) =
          c :: (cs ++ ('\n' :: (pad ind ++ (']' :: rest)))) from by simp]
        rw [skipWs_not_ws _ hws]
        have hsz : sizeA (JArr.cons v vs) < f := by
          simp only [sizeV] at hs
          omega
        have hitems : parseItems f (c :: (cs ++ ('\n' :: (pad ind ++ (']' :: rest))))) =
            some (JArr.cons v vs, rest) := by
          rw [show c :: (cs ++ ('\n' :: (pad ind ++ (']' :: rest)))) =
            (c :: cs) ++ (('\n' :: pad ind) ++ (']' :: rest)) from by simp]
          rw [← hc]
          exact parseItems_ser (JArr.cons v vs) (ind + 2) f ('\n' :: pad ind) rest
            (by simp) hsz (nlpad_all_ws ind)
        simp [if_neg hrb, hitems]
  | obj o =>
    cases o with
    | nil =>
      intro ind fuel rest hs hr
      cases fuel with
      | zero => simp [sizeV] at hs
      | succ f =>
        rw [serVal.eq_8]
        rw [show ([obraceChar, cbraceChar] : List Char) ++ rest =
          obraceChar :: cbraceChar :: rest from by simp]
        rw [parseVal.eq_2]
        rw [skipWs_not_ws _ (by decide : wsChar obraceChar = false)]
        simp only [if_neg (show ¬(obraceChar = 'n') from by decide),
          if_neg (show ¬(obraceChar = 't') from by decide),
          if_neg (show ¬(obraceChar = 'f') from by decide),
          if_neg (show ¬(obraceChar = '"') from by decide),
          if_neg (show ¬(obraceChar = '[') from by decide),
          if_pos (show obraceChar = obraceChar from rfl)]
        rw [skipWs_not_ws _ (by decide : wsChar cbraceChar = false)]
        simp
    | cons k v fs =>
      intro ind fuel rest hs hr
      cases fuel with
      | zero => omega
      | succ f =>
        rw [serVal.eq_9]
        rw [show (obraceChar :: '\n' :: pad (ind + 2) ++
            serMembers (ind + 2) (JObj.cons k v fs) ++ '\n' :: pad ind ++ [cbraceChar]) ++
            rest =
          obraceChar :: '\n' :: (pad (ind + 2) ++ (serMembers (ind + 2) (JObj.cons k v fs) ++
            ('\n' :: (pad ind ++ (cbraceChar :: rest))))) from by simp]
        rw [parseVal.eq_2]
        rw [skipWs_not_ws _ (by decide : wsChar obraceChar = false)]
        simp only [if_neg (show ¬(obraceChar = 'n') from by decide),
          if_neg (show ¬(obraceChar = 't') from by decide),
          if_neg (show ¬(obraceChar = 'f') from by decide),
          if_neg (show ¬(obraceChar = '"') from by decide),
          if_neg (show ¬(obraceChar = '[') from by decide),
          if_pos (show obraceChar = obraceChar from rfl)]
        rw [show skipWs ('\n' :: (pad (ind + 2) ++ (serMembers (ind + 2) (JObj.cons k v fs) ++
            ('\n' :: (pad ind ++ (cbraceChar :: rest)))))) =
          skipWs (serMembers (ind + 2) (JObj.cons k v fs) ++
            ('\n' :: (pad ind ++ (cbraceChar :: rest)))) from by
          rw [show ('\n' :: (pad (ind + 2) ++ (serMembers (ind + 2) (JObj.cons k v fs) ++
              ('\n' :: (pad ind ++ (cbraceChar :: rest)))))) =
            ('\n' :: pad (ind + 2)) ++ (serMembers (ind + 2) (JObj.cons k v fs) ++
              ('\n' :: (pad ind ++ (cbraceChar :: rest)))) from by simp]
          exact skipWs_ws_append _ _ (nlpad_all_ws (ind + 2))]
        obtain ⟨cs, hc⟩ := serMembers_head (ind + 2) k v fs
        rw [hc]
        rw [show ('"' :: cs) ++ ('\n' :: (pad ind ++ (cbraceChar :: rest))) =
          '"' :: (cs ++ ('\n' :: (pad ind ++ (cbraceChar :: rest)))) from by simp]
        rw [skipWs_not_ws _ (by decide : wsChar '"' = false)]
        have hsz : sizeO (JObj.cons k v fs) < f := by
          simp only [sizeV] at hs
          omega
        have hmem : parseMembers f ('"' :: (cs ++ ('\n' :: (pad ind ++
            (cbraceChar :: rest))))) = some (JObj.cons k v fs, rest) := by
          rw [show '"' :: (cs ++ ('\n' :: (pad ind ++ (cbraceChar :: rest)))) =
            ('"' :: cs) ++ (('\n' :: pad ind) ++ (cbraceChar :: rest)) from by simp]
          rw [← hc]
          exact parseMembers_ser (JObj.cons k v fs) (ind + 2) f ('\n' :: pad ind) rest
            (by simp) hsz (nlpad_all_ws ind)
        simp [if_neg (show ¬(('"' : Char) = cbraceChar) from by decide), hmem]

theorem parseItems_ser (a : JArr) : ∀ (ind fuel : Nat) (ws rest : List Char),
    a ≠ JArr.nil → sizeA a < fuel → ws.all wsChar = true →
    parseItems fuel (serItems ind a ++ (ws ++ ']' :: rest)) = some (a, rest) := by
  cases a with
  | nil => intro ind fuel ws rest hne hs hws; exact absurd rfl hne
  | cons v vs =>
    intro ind fuel ws rest hne hs hws
    cases fuel with
    | zero => omega
    | succ f =>
      rw [parseItems.eq_2]
      cases vs with
      | nil =>
        rw [serItems.eq_2]
        rw [parseVal_ser v ind f (ws ++ ']' :: rest)
          (by simp only [sizeA] at hs; omega)
          (noDigitHead_ws_close ws hws ']' (by decide) rest)]
        have h1 : skipWs (ws ++ ']' :: rest) = ']' :: rest := by
          rw [skipWs_ws_append _ _ hws, skipWs_not_ws _ (by decide : wsChar ']' = false)]
        simp [h1]
      | cons w ws2 =>
        rw [serItems.eq_3]
        rw [show (serVal ind v ++ ',' :: '\n' :: pad ind ++
            serItems ind (JArr.cons w ws2)) ++ (ws ++ ']' :: rest) =
          serVal ind v ++ (',' :: ('\n' :: (pad ind ++ (serItems ind (JArr.cons w ws2) ++
            (ws ++ ']' :: rest))))) from by simp]
        have hvpos := sizeV_pos v
        simp only [sizeA] at hs
        rw [parseVal_ser v ind f _ (by omega) (noDigitHead_cons (by decide))]
        have h1 : skipWs (',' :: ('\n' :: (pad ind ++ (serItems ind (JArr.cons w ws2) ++
            (ws ++ ']' :: rest))))) =
          ',' :: ('\n' :: (pad ind ++ (serItems ind (JArr.cons w ws2) ++
            (ws ++ ']' :: rest)))) := skipWs_not_ws _ (by decide)
        have h2 : parseItems f ('\n' :: (pad ind ++ (serItems ind (JArr.cons w ws2) ++
            (ws ++ ']' :: rest)))) = some (JArr.cons w ws2, rest) := by
          rw [show ('\n' :: (pad ind ++ (serItems ind (JArr.cons w ws2) ++
              (ws ++ ']' :: rest)))) =
            ('\n' :: pad ind) ++ (serItems ind (JArr.cons w ws2) ++
              (ws ++ ']' :: rest)) from by simp]
          rw [parseItems_ws_drop f _ _ (nlpad_all_ws ind)]
          exact parseItems_ser (JArr.cons w ws2) ind f ws rest (by simp)
            (by simp only [sizeA]; omega) hws
        simp [h1, h2]

theorem parseMembers_ser (o : JObj) : ∀ (ind fuel : Nat) (ws rest : List Char),
    o ≠ JObj.nil → sizeO o < fuel → ws.all wsChar = true →
    parseMembers fuel (serMembers ind o ++ (ws ++ cbraceChar :: rest)) = some (o, rest) := by
  cases o with
  | nil => intro ind fuel ws rest hne hs hws; exact absurd rfl hne
  | cons k v fs =>
    intro ind fuel ws rest hne hs hws
    cases fuel with
    | zero => omega
    | succ f =>
      rw [parseMembers.eq_2]
      cases fs with
      | nil =>
        rw [serMembers.eq_2]
        rw [show (serStr k ++ ':' :: ' ' :: serVal ind v) ++ (ws ++ cbraceChar :: rest) =
          '"' :: (escChars k.data ++ '"' :: (':' :: (' ' :: (serVal ind v ++
            (ws ++ cbraceChar :: rest))))) from by simp [serStr]]
        rw [skipWs_not_ws _ (by decide : wsChar '"' = false)]
        have hstr := parseStr_serStr k
          (':' :: (' ' :: (serVal ind v ++ (ws ++ cbraceChar :: rest))))
        have h2 : skipWs (':' :: (' ' :: (serVal ind v ++ (ws ++ cbraceChar :: rest)))) =
            ':' :: (' ' :: (serVal ind v ++ (ws ++ cbraceChar :: rest))) :=
          skipWs_not_ws _ (by decide)
        have h3 : parseVal f (' ' :: (serVal ind v ++ (ws ++ cbraceChar :: rest))) =
            some (v, ws ++ cbraceChar :: rest) := by
          rw [show (' ' :: (serVal ind v ++ (ws ++ cbraceChar :: rest))) =
            ([' '] ++ (serVal ind v ++ (ws ++ cbraceChar :: rest))) from by simp]
          rw [parseVal_ws_drop f _ _ (by decide)]
          exact parseVal_ser v ind f _ (by simp only [sizeO] at hs; omega)
            (noDigitHead_ws_close ws hws cbraceChar (by decide) rest)
        have h4 : skipWs (ws ++ cbraceChar :: rest) = cbraceChar :: rest := by
          rw [skipWs_ws_append _ _ hws,
            skipWs_not_ws _ (by decide : wsChar cbraceChar = false)]
        simp [hstr, h2, h3, h4, if_neg (show ¬(cbraceChar = ',') from by decide)]
      | cons k2 v2 fs2 =>
        rw [serMembers.eq_3]
        rw [show (serStr k ++ ':' :: ' ' :: serVal ind v ++ ',' :: '\n' :: pad ind ++
            serMembers ind (JObj.cons k2 v2 fs2)) ++ (ws ++ cbraceChar :: rest) =
          '"' :: (escChars k.data ++ '"' :: (':' :: (' ' :: (serVal ind v ++
            (',' :: ('\n' :: (pad ind ++ (serMembers ind (JObj.cons k2 v2 fs2) ++
              (ws ++ cbraceChar :: rest))))))))) from by simp [serStr]]
        rw [skipWs_not_ws _ (by decide : wsChar '"' = false)]
        have hvpos := sizeV_pos v
        simp only [sizeO] at hs
        have hstr := parseStr_serStr k
          (':' :: (' ' :: (serVal ind v ++ (',' :: ('\n' :: (pad ind ++
            (serMembers ind (JObj.cons k2 v2 fs2) ++ (ws ++ cbraceChar :: rest))))))))
        have h2 : skipWs (':' :: (' ' :: (serVal ind v ++ (',' :: ('\n' :: (pad ind ++
            (serMembers ind (JObj.cons k2 v2 fs2) ++ (ws ++ cbraceChar :: rest)))))))) =
            ':' :: (' ' :: (serVal ind v ++ (',' :: ('\n' :: (pad ind ++
            (serMembers ind (JObj.cons k2 v2 fs2) ++ (ws ++ cbraceChar :: rest))))))) :=
          skipWs_not_ws _ (by decide)
        have h3 : parseVal f (' ' :: (serVal ind v ++ (',' :: ('\n' :: (pad ind ++
            (serMembers ind (JObj.cons k2 v2 fs2) ++ (ws ++ cbraceChar :: rest))))))) =
            some (v, ',' :: ('\n' :: (pad ind ++ (serMembers ind (JObj.cons k2 v2 fs2) ++
              (ws ++ cbraceChar :: rest))))) := by
          rw [show (' ' :: (serVal ind v ++ (',' :: ('\n' :: (pad ind ++
              (serMembers ind (JObj.cons k2 v2 fs2) ++ (ws ++ cbraceChar :: rest))))))) =
            ([' '] ++ (serVal ind v ++ (',' :: ('\n' :: (pad ind ++
              (serMembers ind (JObj.cons k2 v2 fs2) ++ (ws ++ cbraceChar :: rest))))))) from
            by simp]
          rw [parseVal_ws_drop f _ _ (by decide)]
          exact parseVal_ser v ind f _ (by omega) (noDigitHead_cons (by decide))
        have h4 : skipWs (',' :: ('\n' :: (pad ind ++ (serMembers ind (JObj.cons k2 v2 fs2) ++
            (ws ++ cbraceChar :: rest))))) =
            ',' :: ('\n' :: (pad ind ++ (serMembers ind (JObj.cons k2 v2 fs2) ++
            (ws ++ cbraceChar :: rest)))) := skipWs_not_ws _ (by decide)
        have h5 : parseMembers f ('\n' :: (pad ind ++ (serMembers ind (JObj.cons k2 v2 fs2) ++
            (ws ++ cbraceChar :: rest)))) = some (JObj.cons k2 v2 fs2, rest) := by
          rw [show ('\n' :: (pad ind ++ (serMembers ind (JObj.cons k2 v2 fs2) ++
              (ws ++ cbraceChar :: rest)))) =
            ('\n' :: pad ind) ++ (serMembers ind (JObj.cons k2 v2 fs2) ++
              (ws ++ cbraceChar :: rest)) from by simp]
          rw [parseMembers_ws_drop f _ _ (nlpad_all_ws ind)]
          exact parseMembers_ser (JObj.cons k2 v2 fs2) ind f ws rest (by simp)
            (by simp only [sizeO]; omega) hws
        simp [hstr, h2, h3, h4, h5]

end

mutual

theorem sizeV_le_len (v : JValue) : ∀ ind : Nat, sizeV v ≤ (serVal ind v).length := by
  cases v with
  | null => intro ind; rw [serVal.eq_1]; simp [sizeV]
  | bool b =>
    intro ind
    cases b with
    | true => rw [serVal.eq_2]; simp [sizeV]
    | false => rw [serVal.eq_3]; simp [sizeV]
  | int n =>
    intro ind
    rw [serVal.eq_4]
    simp only [sizeV]
    by_cases hneg : n < 0
    · rw [serInt, if_pos hneg]; simp
    · rw [serInt, if_neg hneg]
      have hne := natToCharsAux_ne_nil (n.toNat + 1) n.toNat (by omega)
      have hlen : 0 < (natToChars n.toNat).length := List.length_pos.mpr hne
      omega
  | str s => intro ind; rw [serVal.eq_5]; simp [sizeV, serStr]
  | arr a =>
    cases a with
    | nil => intro ind; rw [serVal.eq_6]; simp [sizeV, sizeA]
    | cons v vs =>
      intro ind
      rw [serVal.eq_7]
      have hIH := sizeA_le_len (JArr.cons v vs) (ind + 2)
      simp only [sizeV, List.length_cons, List.length_append, List.length_singleton, pad,
        List.length_replicate]
      omega
  | obj o =>
    cases o with
    | nil => intro ind; rw [serVal.eq_8]; simp [sizeV, sizeO]
    | cons k v fs =>
      intro ind
      rw [serVal.eq_9]
      have hIH := sizeO_le_len (JObj.cons k v fs) (ind + 2)
      simp only [sizeV, List.length_cons, List.length_append, List.length_singleton, pad,
        List.length_replicate]
      omega

theorem sizeA_le_len (a : JArr) : ∀ ind : Nat, sizeA a ≤ (serItems ind a).length + 1 := by
  cases a with
  | nil => intro ind; rw [serItems.eq_1]; simp [sizeA]
  | cons v vs =>
    cases vs with
    | nil =>
      intro ind
      rw [serItems.eq_2]
      have hIH := sizeV_le_len v ind
      simp only [sizeA]
      omega
    | cons w ws =>
      intro ind
      rw [serItems.eq_3]
      have h1 := sizeV_le_len v ind
      have h2 := sizeA_le_len (JArr.cons w ws) ind
      simp only [sizeA, List.length_append, List.length_cons, pad, List.length_replicate] at *
      omega

theorem sizeO_le_len (o : JObj) : ∀ ind : Nat, sizeO o ≤ (serMembers ind o).length + 1 := by
  cases o with
  | nil => intro ind; rw [serMembers.eq_1]; simp [sizeO]
  | cons k v fs =>
    cases fs with
    | nil =>
      intro ind
      rw [serMembers.eq_2]
      have hIH := sizeV_le_len v ind
      simp only [sizeO, List.length_append, List.length_cons]
      omega
    | cons k2 v2 fs2 =>
      intro ind
      rw [serMembers.eq_3]
      have h1 := sizeV_le_len v ind
      have h2 := sizeO_le_len (JObj.cons k2 v2 fs2) ind
      simp only [sizeO, List.length_append, List.length_cons, pad, List.length_replicate] at *
      omega

end

theorem jparse_ser (v : JValue) : jparse (serVal 0 v) = some v := by
  unfold jparse
  have hlen : sizeV v < (serVal 0 v).length + 1 := by
    have := sizeV_le_len v 0
    omega
  have h := parseVal_ser v 0 ((serVal 0 v).length + 1) [] hlen trivial
  rw [List.append_nil] at h
  rw [h]
  simp [skipWs]

theorem cache_roundtrip (fs : FileSys) (path : String) (events : List JValue) :
    cacheLoad (cacheStore fs path events) path = some events := by
  unfold cacheLoad cacheStore serializeEvents
  rw [if_pos rfl]
  simp only [jparse_ser, jarrToList_ofList]

theorem aggStep_eq (st : AggResult) (ev : JValue) :
    aggStep st ev = match parsedAmount ev with
      | some n =>
        { total := st.total + n, processed := st.processed + 1, malformed := st.malformed }
      | none => { st with malformed := st.malformed + 1 } := by
  cases ev with
  | obj o =>
    simp only [aggStep, parsedAmount]
    cases h1 : lookupJ o "data" with
    | none => rfl
    | some d =>
      cases d with
      | obj dd =>
        cases h2 : lookupJ dd "amount" with
        | none => simp [h2]
        | some a =>
          cases h3 : pyIntOfJValue a with
          | none => simp [h2, h3]
          | some n => simp [h2, h3]
      | null => rfl
      | bool b => rfl
      | int n => rfl
      | str s => rfl
      | arr a2 => rfl
  | null => rfl
  | bool b => rfl
  | int n => rfl
  | str s => rfl
  | arr a => rfl

theorem aggregate_go (events : List JValue) : ∀ st : AggResult,
    events.foldl aggStep st =
      { total := st.total + (events.filterMap parsedAmount).sum,
        processed := st.processed + events.countP (fun e => (parsedAmount e).isSome),
        malformed := st.malformed + events.countP (fun e => (parsedAmount e).isNone) } := by
  induction events with
  | nil => intro st; simp
  | cons e es ih =>
    intro st
    rw [List.foldl_cons, ih (aggStep st e), aggStep_eq]
    cases h : parsedAmount e with
    | some n =>
      simp only [h, List.filterMap_cons, List.countP_cons, List.sum_cons,
        Option.isSome_some, Option.isNone_some, AggResult.mk.injEq]
      refine ⟨?_, ?_, ?_⟩
      · ring
      · simp
        omega
      · simp
    | none =>
      simp only [h, List.filterMap_cons, List.countP_cons,
        Option.isSome_none, Option.isNone_none, AggResult.mk.injEq]
      refine ⟨?_, ?_, ?_⟩
      · simp
      · simp
      · simp
        omega

theorem aggregate_eq (events : List JValue) :
    aggregate events =
      { total := (events.filterMap parsedAmount).sum,
        processed := events.countP (fun e => (parsedAmount e).isSome),
        malformed := events.countP (fun e => (parsedAmount e).isNone) } := by
  unfold aggregate
  rw [aggregate_go]
  simp

theorem countP_some_none (events : List JValue) :
    events.countP (fun e => (parsedAmount e).isSome) +
      events.countP (fun e => (parsedAmount e).isNone) = events.length := by
  induction events with
  | nil => rfl
  | cons e es ih =>
    simp only [List.countP_cons, List.length_cons]
    cases h : parsedAmount e <;> simp [h] <;> omega

theorem fetchGo_full_pages (limit : Nat) (hl : 0 < limit) (bad : QueryResp)
    (hbad : bad = QueryResp.exn ∨ bad = QueryResp.errs) (rest : List QueryResp) :
    ∀ (pages : List (List JValue)), (∀ p ∈ pages, p.length = limit) →
      ∀ off : Nat,
      (fetchGo limit (pages.map QueryResp.page ++ bad :: rest) off).1 = pages.flatten := by
  intro pages
  induction pages with
  | nil =>
    intro hp off
    rcases hbad with h | h <;> subst h <;> simp [fetchGo]
  | cons p ps ih =>
    intro hp off
    have hplen : p.length = limit := hp p (by simp)
    have h1 : p.isEmpty = false := by
      cases p with
      | nil => simp at hplen; omega
      | cons a l => rfl
    have h2 : ¬(p.length < limit) := by omega
    simp only [List.map_cons, List.cons_append]
    rw [fetchGo]
    simp only [h1, Bool.false_eq_true, if_false, if_neg h2]
    rw [List.flatten_cons]
    have := ih (fun q hq => hp q (by simp [hq])) (off + limit)
    simp [this]

theorem range_one_map (limit off : Nat) :
    List.map (fun i => off + i * limit) (List.range 1) = [off] := by
  rw [List.range_succ_eq_map]
  simp

theorem fetchGo_offsets_shape (limit : Nat) : ∀ (script : List QueryResp) (off : Nat),
    ∃ n, 0 < n ∧ (fetchGo limit script off).2 =
      (List.range n).map (fun i => off + i * limit) := by
  intro script
  induction script with
  | nil =>
    intro off
    exact ⟨1, by omega, by simp [fetchGo, range_one_map]⟩
  | cons r rest ih =>
    intro off
    cases r with
    | exn => exact ⟨1, by omega, by simp [fetchGo, range_one_map]⟩
    | errs => exact ⟨1, by omega, by simp [fetchGo, range_one_map]⟩
    | noData => exact ⟨1, by omega, by simp [fetchGo, range_one_map]⟩
    | page evs =>
      by_cases h1 : evs.isEmpty
      · exact ⟨1, by omega, by simp [fetchGo, h1, range_one_map]⟩
      · by_cases h2 : evs.length < limit
        · refine ⟨1, by omega, ?_⟩
          rw [fetchGo]
          simp [h1, h2, range_one_map]
        · obtain ⟨n, hn, hoff⟩ := ih (off + limit)
          refine ⟨n + 1, by omega, ?_⟩
          rw [fetchGo]
          simp only [h1, Bool.false_eq_true, if_false, if_neg h2]
          rw [hoff, List.range_succ_eq_map]
          simp only [List.map_cons, List.map_map]
          rw [show (off + 0 * limit) = off from by omega]
          refine congrArg (fun l => off :: l) ?_
          refine List.map_congr_left ?_
          intro i hi
          simp [Function.comp, Nat.succ_mul]
          omega

/-- C1: for every EventSet and integer threshold, an address that receives a
verdict and has at least one attributable event meets the criteria exactly
when its reported cumulative amount is strictly greater than the threshold;
in particular a sum equal to the threshold does not meet. -/
theorem c1_threshold_strict (events : List JValue) (addr : String) (threshold : Int)
    (r : AddressResult) (h : processAddress events addr threshold = some r)
    (hfound : 0 < r.events_found) :
    (r.meets_criteria = true ↔ threshold < r.cumulative_amount) ∧
      (r.cumulative_amount = threshold → r.meets_criteria = false) := by
  simp only [processAddress] at h
  split at h
  · injection h with h2
    subst h2
    simp at hfound
  · split at h
    · exact absurd h (by simp)
    · split at h
      · injection h with h2
        subst h2
        rename_i hempty
        simp only [List.isEmpty_iff] at hempty
        simp [hempty] at hfound
      · injection h with h2
        subst h2
        refine ⟨by simp [decide_eq_true_eq], ?_⟩
        intro heq
        have heq2 : calculate_cumulative_amount (List.filter (isAttributable addr) events) =
            threshold := heq
        simp [heq2]

/-- C1 witness at a concrete boundary input: one attributable event of
amount five against threshold five, where the verdict is does-not-meet. -/
theorem c1_threshold_strict_witness :
    (c1WitnessResult.meets_criteria = true ↔ (5 : Int) < c1WitnessResult.cumulative_amount) ∧
      (c1WitnessResult.cumulative_amount = 5 → c1WitnessResult.meets_criteria = false) :=
  c1_threshold_strict [evAmountFive] "0xA" 5 c1WitnessResult rfl (by decide)

/-- C2 counterexample: two event lists with equal
calculate_cumulative_amount results but different malformed counts, so the
value returned to the caller is only the sum and cannot carry the counts;
the Python function's return statement yields total_amount alone. -/
theorem c2_triple_output_counterexample :
    calculate_cumulative_amount [evAmountFive] =
        calculate_cumulative_amount [evAmountFive, JValue.null] ∧
      (aggregate [evAmountFive]).malformed ≠
        (aggregate [evAmountFive, JValue.null]).malformed := by
  constructor
  · rfl
  · decide

/-- C2 amended: the Aggregator computes the triple of counters internally
but returns only the sum of the successfully parsed amounts; the
attributable and malformed counts are logged, not returned. -/
theorem c2_returns_sum_only (events : List JValue) :
    calculate_cumulative_amount events = (events.filterMap parsedAmount).sum := by
  unfold calculate_cumulative_amount
  rw [aggregate_eq]

/-- C3: a transport or decode exception, or a reply carrying an errors key,
stops pagination and the paginator returns exactly the pages accumulated
before the failing page, as an ordinary value rather than an exception. -/
theorem c3_partial_on_error (limit : Nat) (pages : List (List JValue))
    (bad : QueryResp) (rest : List QueryResp) (hl : 0 < limit)
    (hp : ∀ p ∈ pages, p.length = limit)
    (hbad : bad = QueryResp.exn ∨ bad = QueryResp.errs) :
    fetch_all_events_by_type limit (pages.map QueryResp.page ++ bad :: rest) =
      pages.flatten := by
  unfold fetch_all_events_by_type
  exact fetchGo_full_pages limit hl bad hbad rest pages hp 0

/-- C3 witness: one full page of two events followed by an errors reply
yields exactly that page. -/
theorem c3_partial_on_error_witness :
    fetch_all_events_by_type 2
        ([[evAmountFive, evNegAmount]].map QueryResp.page ++ QueryResp.errs :: []) =
      [[evAmountFive, evNegAmount]].flatten :=
  c3_partial_on_error 2 [[evAmountFive, evNegAmount]] QueryResp.errs [] (by decide)
    (by
      intro p hp
      rw [List.mem_singleton] at hp
      subst hp
      rfl)
    (Or.inr rfl)

/-- C4: for a positive page size, the offsets requested by one pagination
run form the arithmetic sequence zero, limit, two limit and so on; the
sequence is strictly increasing and so requests no offset twice. -/
theorem c4_offsets_arithmetic (limit : Nat) (script : List QueryResp) (hl : 0 < limit) :
    (∃ n, 0 < n ∧ fetchOffsets limit script = (List.range n).map (fun i => i * limit)) ∧
      List.Pairwise (fun a b => a < b) (fetchOffsets limit script) ∧
      (fetchOffsets limit script).Nodup := by
  obtain ⟨n, hn, hoff⟩ := fetchGo_offsets_shape limit script 0
  have hoff2 : fetchOffsets limit script = (List.range n).map (fun i => i * limit) := by
    unfold fetchOffsets
    rw [hoff]
    exact List.map_congr_left (fun i _ => by omega)
  have hpw : List.Pairwise (fun a b => a < b) (fetchOffsets limit script) := by
    rw [hoff2, List.pairwise_map]
    refine (List.pairwise_lt_range n).imp ?_
    intro a b hab
    exact Nat.mul_lt_mul_of_lt_of_le hab (Nat.le_refl limit) hl
  exact ⟨⟨n, hn, hoff2⟩, hpw, hpw.imp Nat.ne_of_lt⟩

/-- C4 witness: a two-page script at page size two. -/
theorem c4_offsets_arithmetic_witness :
    (∃ n, 0 < n ∧ fetchOffsets 2 [QueryResp.page [evAmountFive, evNegAmount], QueryResp.exn] =
        (List.range n).map (fun i => i * 2)) ∧
      List.Pairwise (fun a b => a < b)
        (fetchOffsets 2 [QueryResp.page [evAmountFive, evNegAmount], QueryResp.exn]) ∧
      (fetchOffsets 2 [QueryResp.page [evAmountFive, evNegAmount], QueryResp.exn]).Nodup :=
  c4_offsets_arithmetic 2 [QueryResp.page [evAmountFive, evNegAmount], QueryResp.exn]
    (by decide)

/-- C5 counterexample: an attributable event whose amount string is minus
five is accepted by int() and drives the reported cumulative amount below
zero, so the amount is not non-negative for every EventSet. -/
theorem c5_nonneg_counterexample :
    processAddress [evNegAmount] "0xA" 0 =
        some { address := "0xA", meets_criteria := false, cumulative_amount := -5,
               events_found := 1, error := none } ∧
      ¬(0 ≤ (-5 : Int)) := by
  constructor
  · rfl
  · decide

/-- C5 amended: whenever every event amount that parses at all is
non-negative, as holds for on-chain unsigned amounts, the reported
cumulative amount is non-negative. -/
theorem c5_nonneg_amount (events : List JValue) (addr : String) (threshold : Int)
    (r : AddressResult)
    (hpos : ∀ ev ∈ events, ∀ n : Int, parsedAmount ev = some n → 0 ≤ n)
    (h : processAddress events addr threshold = some r) :
    0 ≤ r.cumulative_amount := by
  simp only [processAddress] at h
  split at h
  · injection h with h2
    subst h2
    simp
  · split at h
    · exact absurd h (by simp)
    · split at h
      · injection h with h2
        subst h2
        simp
      · injection h with h2
        subst h2
        show 0 ≤ calculate_cumulative_amount (List.filter (isAttributable addr) events)
        unfold calculate_cumulative_amount
        rw [aggregate_eq]
        apply List.sum_nonneg
        intro x hx
        obtain ⟨ev, hev, hx2⟩ := List.mem_filterMap.mp hx
        exact hpos ev (List.mem_filter.mp hev).1 x hx2

/-- C5 witness: a single attributable event of amount five. -/
theorem c5_nonneg_amount_witness :
    0 ≤ ({ address := "0xA", meets_criteria := true, cumulative_amount := 5,
           events_found := 1, error := none } : AddressResult).cumulative_amount :=
  c5_nonneg_amount [evAmountFive] "0xA" 0 _
    (by
      intro ev hev n hn
      rw [List.mem_singleton] at hev
      subst hev
      rw [show parsedAmount evAmountFive = some 5 from rfl] at hn
      injection hn with hn2
      omega)
    rfl

/-- C6 counterexample: on an empty EventSet the verdict, amount and count
match the claim but the stored error message is capitalized, so it is not
the claimed lowercase string. -/
theorem c6_message_counterexample :
    processAddress [] "0xabc" 100 =
        some { address := "0xabc", meets_criteria := false, cumulative_amount := 0,
               events_found := 0, error := some "No global events of target type found" } ∧
      processAddress [] "0xabc" 100 ≠
        some { address := "0xabc", meets_criteria := false, cumulative_amount := 0,
               events_found := 0, error := some "no global events of target type found" } := by
  constructor
  · rfl
  · decide

/-- C6 amended: for every address and threshold, an empty global EventSet
yields verdict does-not-meet, amount zero, zero events found, and the
error message with a capital initial letter as the source writes it. -/
theorem c6_empty_eventset (addr : String) (threshold : Int) :
    processAddress [] addr threshold =
      some { address := addr, meets_criteria := false, cumulative_amount := 0,
             events_found := 0,
             error := some "No global events of target type found" } := rfl

/-- C7: the aggregation sum is exactly the sum of the successfully parsed
amounts and the malformed counter counts exactly the events whose amount
is absent or unparsable; on the concrete ten-event input with three
non-numeric amounts the seven valid ones sum to 280 and malformed is 3. -/
theorem c7_malformed_tolerance :
    (∀ events : List JValue,
      (aggregate events).total = (events.filterMap parsedAmount).sum ∧
        (aggregate events).malformed =
          events.countP (fun e => (parsedAmount e).isNone)) ∧
      aggregate eventsTenThreeBad = { total := 280, processed := 7, malformed := 3 } := by
  constructor
  · intro events
    rw [aggregate_eq]
    exact ⟨rfl, rfl⟩
  · rfl

/-- C8: storing an EventSet in the cache and loading it back with no
intervening mutation of the file system returns the same EventSet, same
elements in the same order. -/
theorem c8_cache_roundtrip (fs : FileSys) (path : String) (events : List JValue) :
    cacheLoad (cacheStore fs path events) path = some events :=
  cache_roundtrip fs path events

/-- C10: every input event lands in exactly one of the two counters, so
the processed and malformed counts sum to the length of the input list. -/
theorem c10_counters_partition (events : List JValue) :
    (aggregate events).processed + (aggregate events).malformed = events.length := by
  rw [aggregate_eq]
  exact countP_some_none events

/-- C9: with caching enabled and no cache record present, main fetches,
persists whatever list the paginator returned (partial or empty included)
under the event-type and date key, and a later run with the same key loads
that record as the complete EventSet without fetching and without touching
the file system. -/
theorem c9_cache_persists_fetch (fs : FileSys) (script script2 : List QueryResp)
    (eventType cacheDir date : String) (limit : Nat)
    (hmiss : fs (cacheFilePath cacheDir eventType date) = none) :
    (mainFetchStep fs script false eventType cacheDir date limit).fetched = true ∧
      (mainFetchStep fs script false eventType cacheDir date limit).events =
        fetch_all_events_by_type limit script ∧
      (mainFetchStep fs script false eventType cacheDir date limit).fs
          (cacheFilePath cacheDir eventType date) =
        some (serializeEvents (fetch_all_events_by_type limit script)) ∧
      mainFetchStep (mainFetchStep fs script false eventType cacheDir date limit).fs
          script2 false eventType cacheDir date limit =
        { events := fetch_all_events_by_type limit script,
          fs := (mainFetchStep fs script false eventType cacheDir date limit).fs,
          fetched := false } := by
  have hload1 : cacheLoad fs (cacheFilePath cacheDir eventType date) = none := by
    unfold cacheLoad
    rw [hmiss]
  have h1 : mainFetchStep fs script false eventType cacheDir date limit =
      { events := fetch_all_events_by_type limit script,
        fs := cacheStore fs (cacheFilePath cacheDir eventType date)
          (fetch_all_events_by_type limit script),
        fetched := true } := by
    unfold mainFetchStep
    simp [hload1]
  refine ⟨by rw [h1], by rw [h1], ?_, ?_⟩
  · rw [h1]
    show cacheStore fs (cacheFilePath cacheDir eventType date)
        (fetch_all_events_by_type limit script) (cacheFilePath cacheDir eventType date) =
      some (serializeEvents (fetch_all_events_by_type limit script))
    unfold cacheStore
    rw [if_pos rfl]
  · rw [h1]
    unfold mainFetchStep
    simp [cache_roundtrip]

/-- C9 witness: an empty file system, an empty script (so the fetch is an
immediate exception and the result is the empty partial EventSet), and a
second run that reads the cached empty record. -/
theorem c9_cache_persists_fetch_witness :
    (mainFetchStep emptyFS [] false "et" "d" "dt" 1).fetched = true ∧
      (mainFetchStep emptyFS [] false "et" "d" "dt" 1).events =
        fetch_all_events_by_type 1 [] ∧
      (mainFetchStep emptyFS [] false "et" "d" "dt" 1).fs (cacheFilePath "d" "et" "dt") =
        some (serializeEvents (fetch_all_events_by_type 1 [])) ∧
      mainFetchStep (mainFetchStep emptyFS [] false "et" "d" "dt" 1).fs
          [] false "et" "d" "dt" 1 =
        { events := fetch_all_events_by_type 1 [],
          fs := (mainFetchStep emptyFS [] false "et" "d" "dt" 1).fs,
          fetched := false } :=
  c9_cache_persists_fetch emptyFS [] [] "et" "d" "dt" 1 rfl
